import Mathlib

/-!
Verification of the toloka-kit streaming core (`streaming/cursor.py`,
`streaming/pipeline.py`) via a shallow embedding.

Items are opaque records with a numeric `id` and a numeric `time` (the
per-cursor time field).  The remote fetcher is modelled as a function from a
call counter, the issued search request and the requested sort key to a
response; the call counter lets consecutive calls observe a changing remote
collection.  Iteration is driven by fuel (one unit per time-sorted page of
the main loop; the by-id drain receives the remaining fuel as its budget);
`none` means the run did not finish within the fuel, every claim is about
runs that return `some`.
-/

/-- An item of a remote collection: stable id plus the value of the
cursor's time field (`streaming/cursor.py`, `_get_time`). -/
structure Item where
  id : Nat
  time : Nat
deriving DecidableEq, Repr

/-- `ResponseObjectType` from `streaming/cursor.py`: optional `items`,
optional `has_more`. -/
structure Response where
  items : Option (List Item)
  has_more : Option Bool
deriving DecidableEq, Repr

/-- Python truthiness of `response.items`: `None` and `[]` both act as the
empty list. -/
def Response.itemsList (r : Response) : List Item := r.items.getD []

/-- The predicates of a search request relevant to cursor iteration
(`T_gte`, `T_gt`, `T_lte` for the cursor's time field, and `id_gt`).
`attr.evolve` on the Python side is functional record update here. -/
structure SearchRequest where
  t_gte : Option Nat := none
  t_gt : Option Nat := none
  t_lte : Option Nat := none
  id_gt : Option Nat := none
deriving DecidableEq, Repr

/-- The `sort=` argument of a fetcher call: the cursor's time field, or
the literal `id` used by `_ByIdCursor`. -/
inductive SortKey
  | byTime
  | byId
deriving DecidableEq, Repr

/-- The remote fetcher: call counter, request, sort key to response. -/
def Fetcher : Type := Nat → SearchRequest → SortKey → Response

/-- `DATETIME_MIN = datetime.fromtimestamp(0)` (`streaming/cursor.py`). -/
def DATETIME_MIN : Nat := 0

/-- `BaseCursor` state: `(request, prev_response, seen_ids)` as returned by
`BaseCursor._get_state`. -/
structure CursorState where
  request : SearchRequest
  prev_response : Option Response := none
  seen_ids : Finset Nat := ∅
deriving DecidableEq

/-- `BaseCursor.__attrs_post_init__`: if the caller supplied no (falsy)
`T_gte`, replace it with `DATETIME_MIN`; a supplied datetime is always
truthy and is kept. -/
def attrsPostInit (r : SearchRequest) : SearchRequest :=
  if r.t_gte = none then { r with t_gte := some DATETIME_MIN } else r

/-- The request after one `_ByIdCursor` round: `id_gt` advances to the id
of the last item of a non-empty page. -/
def advanceIdGt (req : SearchRequest) (items : List Item) : SearchRequest :=
  match items.getLast? with
  | some lastIt => { req with id_gt := some lastIt.id }
  | none => req

/-- `_ByIdCursor.__iter__`: fetch with `sort='id'`; yield every item of a
non-empty page and then advance `id_gt` to the last item's id; stop as soon
as `has_more` is not `True`.  Returns the yielded items, the final request
and the next call counter. -/
def byIdRun (f : Fetcher) : Nat → Nat → SearchRequest → Option (List Item × SearchRequest × Nat)
  | 0, _, _ => none
  | fuel + 1, n, req =>
    if (f n req SortKey.byId).has_more = some true then
      match byIdRun f fuel (n + 1) (advanceIdGt req (f n req SortKey.byId).itemsList) with
      | none => none
      | some (more, reqF, nF) => some ((f n req SortKey.byId).itemsList ++ more, reqF, nF)
    else
      some ((f n req SortKey.byId).itemsList,
        advanceIdGt req (f n req SortKey.byId).itemsList, n + 1)

/-- The per-item loop of `BaseCursor.__iter__`: for each page item not in
`seen_ids`, advance `request.T_gte` to the item's time, add the id to
`seen_ids` and emit the event. -/
def processPageItems : CursorState → List Item → List Item × CursorState
  | st, [] => ([], st)
  | st, it :: rest =>
    if it.id ∈ st.seen_ids then
      processPageItems st rest
    else
      (it :: (processPageItems
          { st with
            request := { st.request with t_gte := some it.time },
            seen_ids := insert it.id st.seen_ids } rest).1,
        (processPageItems
          { st with
            request := { st.request with t_gte := some it.time },
            seen_ids := insert it.id st.seen_ids } rest).2)

/-- The drain loop of `BaseCursor.__iter__`: each item produced by the
`_ByIdCursor` that is not in `seen_ids` is added to `seen_ids` and emitted
(the request is not touched here). -/
def processDrainItems : CursorState → List Item → List Item × CursorState
  | st, [] => ([], st)
  | st, it :: rest =>
    if it.id ∈ st.seen_ids then
      processDrainItems st rest
    else
      (it :: (processDrainItems { st with seen_ids := insert it.id st.seen_ids } rest).1,
        (processDrainItems { st with seen_ids := insert it.id st.seen_ids } rest).2)

/-- One round of the `while True` loop of `BaseCursor.__iter__`:
fetch a time-sorted page; an empty page ends the iteration with the state
untouched; otherwise record `prev_response`, run the dedup loop, stop if
`has_more` is not `True`, otherwise run the fixed-time by-id drain when the
whole page shares `max_time`, set `request.T_gt := max_time` after the
drain, and finally strip `seen_ids` to the ids of the current page.
The boolean of the result tells whether the loop continues. -/
def stepPageWith (f : Fetcher) (drainFuel : Nat) (n : Nat) (st : CursorState)
    (resp : Response) : Option (List Item × CursorState × Nat × Bool) :=
  match resp.itemsList with
  | [] => some ([], st, n + 1, false)
  | it0 :: tl =>
    if resp.has_more ≠ some true then
      some ((processPageItems { st with prev_response := some resp } (it0 :: tl)).1,
        (processPageItems { st with prev_response := some resp } (it0 :: tl)).2,
        n + 1, false)
    else if it0.time = ((it0 :: tl).getLast (List.cons_ne_nil it0 tl)).time then
      match byIdRun f drainFuel (n + 1)
          { (processPageItems { st with prev_response := some resp } (it0 :: tl)).2.request with
            t_lte := some (((it0 :: tl).getLast (List.cons_ne_nil it0 tl)).time) } with
      | none => none
      | some (drained, _, n') =>
        some ((processPageItems { st with prev_response := some resp } (it0 :: tl)).1 ++
            (processDrainItems
              (processPageItems { st with prev_response := some resp } (it0 :: tl)).2 drained).1,
          { (processDrainItems
              (processPageItems { st with prev_response := some resp } (it0 :: tl)).2 drained).2 with
            request :=
              { (processDrainItems
                  (processPageItems { st with prev_response := some resp } (it0 :: tl)).2
                  drained).2.request with
                t_gt := some (((it0 :: tl).getLast (List.cons_ne_nil it0 tl)).time) },
            seen_ids := ((it0 :: tl).map Item.id).toFinset },
          n', true)
    else
      some ((processPageItems { st with prev_response := some resp } (it0 :: tl)).1,
        { (processPageItems { st with prev_response := some resp } (it0 :: tl)).2 with
          seen_ids := ((it0 :: tl).map Item.id).toFinset },
        n + 1, true)

def stepPage (f : Fetcher) (drainFuel : Nat) (n : Nat) (st : CursorState) :
    Option (List Item × CursorState × Nat × Bool) :=
  stepPageWith f drainFuel n st (f n st.request SortKey.byTime)

/-- `BaseCursor.__iter__` run to normal return: chains `stepPage` rounds;
returns the emitted events in order, the final cursor state and the next
call counter. -/
def iterRun (f : Fetcher) : Nat → Nat → CursorState → Option (List Item × CursorState × Nat)
  | 0, _, _ => none
  | fuel + 1, n, st =>
    match stepPage f fuel n st with
    | none => none
    | some (evs, st', n', false) => some (evs, st', n')
    | some (evs, st', n', true) =>
      match iterRun f fuel n' st' with
      | none => none
      | some (evs', stF, nF) => some (evs ++ evs', stF, nF)

/-- A sequence of complete iterations of the same cursor instance:
each list element is the fuel for one `iterRun` pass. -/
def multiRun (f : Fetcher) : List Nat → Nat → CursorState → Option (List Item × CursorState × Nat)
  | [], n, st => some ([], st, n)
  | fu :: rest, n, st =>
    match iterRun f fu n st with
    | none => none
    | some (evs, st', n') =>
      match multiRun f rest n' st' with
      | none => none
      | some (evs', stF, nF) => some (evs ++ evs', stF, nF)

/-- An item satisfies the predicates of a search request. -/
def matchesReq (req : SearchRequest) (it : Item) : Bool :=
  (match req.t_gte with | none => true | some v => decide (v ≤ it.time)) &&
  (match req.t_gt with | none => true | some v => decide (v < it.time)) &&
  (match req.t_lte with | none => true | some v => decide (it.time ≤ v)) &&
  (match req.id_gt with | none => true | some v => decide (v < it.id))

/-- The fetcher contract assumed by the no-duplication claims: time-sorted
pages are ascending in the time field, every returned item satisfies the
issued request's predicates, and an id has one fixed time across all
responses. -/
structure ValidFetcher (f : Fetcher) : Prop where
  sorted : ∀ n req,
    ((f n req SortKey.byTime).itemsList).Pairwise (fun a b => a.time ≤ b.time)
  matches_req : ∀ n req s, ∀ it ∈ (f n req s).itemsList, matchesReq req it = true
  consistent : ∀ n req s n' req' s' it it',
    it ∈ (f n req s).itemsList → it' ∈ (f n' req' s').itemsList →
    it.id = it'.id → it.time = it'.time

/-! ## `try_fetch_all` scope (`BaseCursor.CursorFetchContext`) -/

/-- `CursorFetchContext.__enter__`: save a deep copy of the entry state,
iterate the cursor to exhaustion collecting the events, record the finish
state, roll the cursor back to the saved entry state, and return the
buffer.  The result is `(buffer, cursor state after enter, recorded finish
state, next call counter)`. -/
def ctxEnter (f : Fetcher) (fuel n : Nat) (st : CursorState) :
    Option (List Item × CursorState × CursorState × Nat) :=
  match iterRun f fuel n st with
  | none => none
  | some (evs, stFinish, n') => some (evs, st, stFinish, n')

/-- `CursorFetchContext.__exit__`: commit the recorded finish state only
when the scope body raised no exception; otherwise leave the cursor state
alone. -/
def ctxExit (excRaised : Bool) (cursorSt finishSt : CursorState) : CursorState :=
  if excRaised then cursorSt else finishSt

/-! ## `inject` and object identity

`BaseCursor.inject` runs `self._set_state(injection._get_state())`; the
state tuple holds the `seen_ids` set by reference, so we model Python's
object identity with a small heap of set objects addressed by `Nat`. -/

/-- The heap of mutable `set` objects. -/
def Heap : Type := Nat → Finset Nat

/-- A cursor object: attribute values, with the mutable `seen_ids` set
held as a reference into the heap. -/
structure CursorObj where
  request : SearchRequest
  prev_response : Option Response
  seenRef : Nat
deriving DecidableEq

/-- `BaseCursor._get_state`: the tuple of current attribute values (the
set is passed as the same object, i.e. by reference). -/
def getStateObj (c : CursorObj) : SearchRequest × Option Response × Nat :=
  (c.request, c.prev_response, c.seenRef)

/-- `BaseCursor._set_state`: attribute assignment from the tuple. -/
def setStateObj (c : CursorObj) (s : SearchRequest × Option Response × Nat) : CursorObj :=
  { c with request := s.1, prev_response := s.2.1, seenRef := s.2.2 }

/-- `BaseCursor.inject`: `self._set_state(injection._get_state())`. -/
def injectObj (c other : CursorObj) : CursorObj :=
  setStateObj c (getStateObj other)

/-- The observable `seen_ids` of a cursor object under a heap. -/
def seenObs (h : Heap) (c : CursorObj) : Finset Nat := h c.seenRef

/-- In-place mutation `seen_ids.add(x)` of the set object at address `r`. -/
def seenAdd (h : Heap) (r x : Nat) : Heap :=
  fun i => if i = r then insert x (h i) else h i

/-- `copy.deepcopy` of a cursor: same attribute values, but the set lives
in a freshly allocated object that holds the same elements. -/
def copyCursor (h : Heap) (c : CursorObj) (fresh : Nat) : CursorObj × Heap :=
  ({ c with seenRef := fresh }, fun i => if i = fresh then h c.seenRef else h i)

/-! ## Pipeline (`streaming/pipeline.py`) -/

/-- A completed asyncio task as seen by `Pipeline._process_done_tasks`:
its worker, `task.exception()` and `task.start_time`. -/
structure DoneTask where
  worker : Nat
  exception : Option Nat
  start_time : Nat
deriving DecidableEq, Repr

/-- `pending[worker] = time`: dict assignment on an association list. -/
def updatePending (pending : List (Nat × Nat)) (w t : Nat) : List (Nat × Nat) :=
  if pending.any (fun q => q.1 = w) then
    pending.map (fun q => if q.1 = w then (w, t) else q)
  else
    pending ++ [(w, t)]

/-- The `for task in done` loop of `Pipeline._process_done_tasks`:
delete the worker from `waiting`; an errored task is collected into
`errored`, a successful one goes to `workers_to_dump` and is rescheduled at
`start_time + period`.  Returns `(waiting, pending, workers_to_dump,
errored)`. -/
def processDoneLoop (period : Nat) :
    List DoneTask → List Nat → List (Nat × Nat) →
    List Nat × List (Nat × Nat) × List Nat × List DoneTask
  | [], waiting, pending => (waiting, pending, [], [])
  | t :: rest, waiting, pending =>
    let waiting' := waiting.erase t.worker
    match t.exception with
    | some _ =>
      let r := processDoneLoop period rest waiting' pending
      (r.1, r.2.1, r.2.2.1, t :: r.2.2.2)
    | none =>
      let r := processDoneLoop period rest waiting'
        (updatePending pending t.worker (t.start_time + period))
      (r.1, r.2.1, t.worker :: r.2.2.1, r.2.2.2)

/-- `Pipeline._process_done_tasks`: run the loop, hand `workers_to_dump`
to `_storage_save`, then, if any task errored, raise
`ComplexException([task.exception() for task in errored])`.  The third
component is the saved-workers list (the argument of the save that happens
before any raise), the fourth the payload of the raised combined error
(`none` when nothing is raised). -/
def processDoneTasks (period : Nat) (done : List DoneTask)
    (waiting : List Nat) (pending : List (Nat × Nat)) :
    List Nat × List (Nat × Nat) × List Nat × Option (List Nat) :=
  ((processDoneLoop period done waiting pending).1,
    (processDoneLoop period done waiting pending).2.1,
    (processDoneLoop period done waiting pending).2.2.1,
    if ((processDoneLoop period done waiting pending).2.2.2).isEmpty then none
    else some (((processDoneLoop period done waiting pending).2.2.2).map
      (fun t => t.exception.getD 0)))

/-- The entry check of `Pipeline.run`:
`if not self._observers: raise ValueError('No observers registered')`.
Observers are listed by registration order. -/
def pipelineRunEntry (observers : List Nat) : Except String Unit :=
  if observers.isEmpty then Except.error "No observers registered" else Except.ok ()

/-! ## Concrete fetchers for scenario claims -/

/-- Scenario S2: time-sorted page `[(x1,5),(x2,5),(x3,5)]` with
`has_more=true`; by-id drain page `[(x4,5),(x5,5)]`; time-sorted page
`[(y1,6)]` with `has_more=false`.  Ids 1..5 are x1..x5, id 6 is y1. -/
def scenarioS2Fetcher : Fetcher := fun n _ _ =>
  match n with
  | 0 => ⟨some [⟨1, 5⟩, ⟨2, 5⟩, ⟨3, 5⟩], some true⟩
  | 1 => ⟨some [⟨4, 5⟩, ⟨5, 5⟩], some false⟩
  | _ => ⟨some [⟨6, 6⟩], some false⟩

/-- A freshly constructed cursor: empty request run through
`__attrs_post_init__`, no previous response, empty `seen_ids`. -/
def freshCursor : CursorState := { request := attrsPostInit {} }

/-- Two pages: `[(a,1),(b,2)]` with `has_more=true` then `[(c,3)]` with
`has_more=false` (a = id 1, b = id 2, c = id 3). -/
def finalPageFetcher : Fetcher := fun n _ _ =>
  match n with
  | 0 => ⟨some [⟨1, 1⟩, ⟨2, 2⟩], some true⟩
  | _ => ⟨some [⟨3, 3⟩], some false⟩

/-! ## Claim theorems (scenario and frame claims) -/

/-- C2: in scenario S2 the cursor emits exactly x1,x2,x3,x4,x5,y1 in that
order with no repeats; the whole first page shares `max_time = 5`, the
drain yields the remaining items at time 5, and afterwards the request
carries `T_gt = 5` (and `T_gte = 6` from the final page). -/
theorem cursor_bucket_overflow_scenario :
    iterRun scenarioS2Fetcher 2 0 freshCursor =
      some ([⟨1, 5⟩, ⟨2, 5⟩, ⟨3, 5⟩, ⟨4, 5⟩, ⟨5, 5⟩, ⟨6, 6⟩],
        { request := { t_gte := some 6, t_gt := some 5, t_lte := none, id_gt := none },
          prev_response := some ⟨some [⟨6, 6⟩], some false⟩,
          seen_ids := {6, 1, 2, 3} }, 3)
    ∧ ([(1 : Nat), 2, 3, 4, 5, 6]).Nodup :=
  ⟨rfl, by decide⟩

/-- C7: after `__attrs_post_init__` the request's `T_gte` is always set;
it is `DATETIME_MIN` when the caller supplied no (falsy) value, and the
caller's value is kept otherwise. -/
theorem attrsPostInit_gte_always_set :
    (∀ r : SearchRequest, ((attrsPostInit r).t_gte).isSome = true)
    ∧ (∀ r : SearchRequest, r.t_gte = none →
        (attrsPostInit r).t_gte = some DATETIME_MIN)
    ∧ (∀ (r : SearchRequest) (v : Nat), r.t_gte = some v → attrsPostInit r = r) := by
  refine ⟨fun r => ?_, fun r h => ?_, fun r v h => ?_⟩
  · unfold attrsPostInit
    cases hg : r.t_gte <;> simp [hg]
  · simp [attrsPostInit, h]
  · simp [attrsPostInit, h]

/-- Witness for `attrsPostInit_gte_always_set`. -/
theorem attrsPostInit_gte_always_set_witness :
    (attrsPostInit { t_gte := none }).t_gte = some DATETIME_MIN
    ∧ attrsPostInit { t_gte := some 7 } = { t_gte := some 7 } :=
  ⟨attrsPostInit_gte_always_set.2.1 { t_gte := none } rfl,
   attrsPostInit_gte_always_set.2.2 { t_gte := some 7 } 7 rfl⟩

/-- C9: if the first fetcher response of an iteration pass has no items
(`None` or the empty list), the iteration yields no events and terminates
with the cursor state exactly as it was at entry. -/
theorem iterRun_empty_first_page_frame (f : Fetcher) (fuel n : Nat) (st : CursorState)
    (h : (f n st.request SortKey.byTime).itemsList = []) :
    iterRun f (fuel + 1) n st = some ([], st, n + 1) := by
  simp [iterRun, stepPage, stepPageWith, h]

/-- Witness for `iterRun_empty_first_page_frame`. -/
theorem iterRun_empty_first_page_frame_witness :
    iterRun (fun _ _ _ => ⟨none, none⟩) 1 0 freshCursor = some ([], freshCursor, 1) :=
  iterRun_empty_first_page_frame (fun _ _ _ => ⟨none, none⟩) 0 0 freshCursor rfl

/-- C4 counterexample: after the *final* page of an iteration (the one
with `has_more=false`) the `seen_ids` strip has not run (the generator
returns first), so `seen_ids` is the entry set united with the final
page's new ids.  Concretely: pages `[(1,1),(2,2)]` (`has_more=true`) then
`[(3,3)]` (`has_more=false`, size `k = 1`) leave `|seen_ids| = 3 ≠ 1`. -/
theorem seen_ids_final_page_cex :
    (iterRun finalPageFetcher 2 0 freshCursor).map
        (fun p => (p.1, p.2.1.seen_ids.card, p.2.2)) =
      some ([⟨1, 1⟩, ⟨2, 2⟩, ⟨3, 3⟩], 3, 2)
    ∧ (finalPageFetcher 1 { t_gte := some 2 } SortKey.byTime).itemsList.length = 1
    ∧ (finalPageFetcher 1 { t_gte := some 2 } SortKey.byTime).has_more = some false := by
  exact ⟨rfl, rfl, rfl⟩

/-- C4 (amended): after processing a page after which iteration continues
(`has_more` true), `seen_ids` equals the set of ids of that page, so its
cardinality is the page size whenever the page ids are distinct.  After
the final page of an iteration the strip does not run and `seen_ids` is
the entry set united with the final page's new ids. -/
theorem stepPage_seen_ids_strip (f : Fetcher) (df n : Nat) (st : CursorState)
    (evs : List Item) (st' : CursorState) (n' : Nat)
    (h : stepPage f df n st = some (evs, st', n', true)) :
    st'.seen_ids = (((f n st.request SortKey.byTime).itemsList).map Item.id).toFinset
    ∧ ((((f n st.request SortKey.byTime).itemsList).map Item.id).Nodup →
        st'.seen_ids.card = ((f n st.request SortKey.byTime).itemsList).length) := by
  have hseen : st'.seen_ids =
      (((f n st.request SortKey.byTime).itemsList).map Item.id).toFinset := by
    unfold stepPage at h
    rw [stepPageWith.eq_def] at h
    split at h
    · simp at h
    · rename_i it0 tl heq
      split_ifs at h with hmore htie
      · simp at h
      · split at h
        · simp at h
        · simp only [Option.some.injEq, Prod.mk.injEq] at h
          rw [← h.2.1, heq]
      · simp only [Option.some.injEq, Prod.mk.injEq] at h
        rw [← h.2.1, heq]
  refine ⟨hseen, fun hnd => ?_⟩
  rw [hseen, List.toFinset_card_of_nodup hnd, List.length_map]

/-- Witness for `stepPage_seen_ids_strip`. -/
theorem stepPage_seen_ids_strip_witness :
    stepPage finalPageFetcher 0 0 freshCursor =
      some ([⟨1, 1⟩, ⟨2, 2⟩],
        { request := { t_gte := some 2, t_gt := none, t_lte := none, id_gt := none },
          prev_response := some ⟨some [⟨1, 1⟩, ⟨2, 2⟩], some true⟩,
          seen_ids := {1, 2} }, 1, true)
    ∧ ({ request := { t_gte := some 2, t_gt := none, t_lte := none, id_gt := none },
          prev_response := some ⟨some [⟨1, 1⟩, ⟨2, 2⟩], some true⟩,
          seen_ids := {1, 2} } : CursorState).seen_ids =
        (((finalPageFetcher 0 freshCursor.request SortKey.byTime).itemsList).map Item.id).toFinset
    ∧ ({ request := { t_gte := some 2, t_gt := none, t_lte := none, id_gt := none },
          prev_response := some ⟨some [⟨1, 1⟩, ⟨2, 2⟩], some true⟩,
          seen_ids := {1, 2} } : CursorState).seen_ids.card =
        ((finalPageFetcher 0 freshCursor.request SortKey.byTime).itemsList).length :=
  ⟨rfl,
   (stepPage_seen_ids_strip finalPageFetcher 0 0 freshCursor _ _ _ rfl).1,
   (stepPage_seen_ids_strip finalPageFetcher 0 0 freshCursor _ _ _ rfl).2 (by decide)⟩

/-- A by-id fetcher with two pages, used as witness input: call 0 returns
`[(1,5)]` with `has_more=true`, later calls return `[(2,5)]` with
`has_more=false`. -/
def twoPageByIdFetcher : Fetcher := fun n _ _ =>
  match n with
  | 0 => ⟨some [⟨1, 5⟩], some true⟩
  | _ => ⟨some [⟨2, 5⟩], some false⟩

/-- C10: `_ByIdCursor` iteration yields all items of each non-empty page
in page order and only then advances `id_gt` to the page's last item id
(the recursion continues with the advanced request); it terminates exactly
when a response whose `has_more` is not `True` arrives; and whenever the
fetcher stops returning `has_more=True` from call `N` on, the run returns
`some` for every sufficient fuel. -/
theorem byIdRun_pages_spec (f : Fetcher) :
    (∀ (fuel n : Nat) (req : SearchRequest),
        (f n req SortKey.byId).has_more = some true →
        byIdRun f (fuel + 1) n req =
          (byIdRun f fuel (n + 1) (advanceIdGt req (f n req SortKey.byId).itemsList)).map
            (fun p => ((f n req SortKey.byId).itemsList ++ p.1, p.2)))
    ∧ (∀ (fuel n : Nat) (req : SearchRequest),
        (f n req SortKey.byId).has_more ≠ some true →
        byIdRun f (fuel + 1) n req =
          some ((f n req SortKey.byId).itemsList,
            advanceIdGt req (f n req SortKey.byId).itemsList, n + 1))
    ∧ (∀ N : Nat,
        (∀ (n : Nat) (req : SearchRequest), N ≤ n →
          (f n req SortKey.byId).has_more ≠ some true) →
        ∀ (fuel n : Nat) (req : SearchRequest), N ≤ n + fuel →
          (byIdRun f (fuel + 1) n req).isSome = true) := by
  refine ⟨fun fuel n req hmore => ?_, fun fuel n req hstop => ?_, fun N hN => ?_⟩
  · rw [byIdRun, if_pos hmore]
    cases hrec : byIdRun f fuel (n + 1) (advanceIdGt req (f n req SortKey.byId).itemsList) with
    | none => simp
    | some p => cases p with
      | mk more q => cases q with
        | mk reqF nF => simp
  · rw [byIdRun, if_neg hstop]
  · intro fuel
    induction fuel with
    | zero =>
      intro n req hle
      have hstop := hN n req (by omega)
      rw [byIdRun, if_neg hstop]
      rfl
    | succ fuel ih =>
      intro n req hle
      by_cases hmore : (f n req SortKey.byId).has_more = some true
      · have hn : n < N := by
          by_contra hcon
          exact hN n req (by omega) hmore
        rw [byIdRun, if_pos hmore]
        have := ih (n + 1) (advanceIdGt req (f n req SortKey.byId).itemsList) (by omega)
        cases hrec : byIdRun f (fuel + 1) (n + 1)
            (advanceIdGt req (f n req SortKey.byId).itemsList) with
        | none => rw [hrec] at this; simp at this
        | some p => cases p with
          | mk more q => cases q with
            | mk reqF nF => simp
      · rw [byIdRun, if_neg hmore]
        rfl

/-- Witness for `byIdRun_pages_spec`. -/
theorem byIdRun_pages_spec_witness :
    byIdRun twoPageByIdFetcher 2 0 { } =
      (byIdRun twoPageByIdFetcher 1 1
          (advanceIdGt { } (twoPageByIdFetcher 0 { } SortKey.byId).itemsList)).map
        (fun p => ((twoPageByIdFetcher 0 { } SortKey.byId).itemsList ++ p.1, p.2))
    ∧ byIdRun twoPageByIdFetcher 1 1 { id_gt := some 1 } =
      some ((twoPageByIdFetcher 1 { id_gt := some 1 } SortKey.byId).itemsList,
        advanceIdGt { id_gt := some 1 }
          (twoPageByIdFetcher 1 { id_gt := some 1 } SortKey.byId).itemsList, 2)
    ∧ (byIdRun twoPageByIdFetcher 3 0 { }).isSome = true :=
  ⟨(byIdRun_pages_spec twoPageByIdFetcher).1 1 0 { } rfl,
   (byIdRun_pages_spec twoPageByIdFetcher).2.1 0 1 { id_gt := some 1 } (by decide),
   (byIdRun_pages_spec twoPageByIdFetcher).2.2 1
     (fun n req hn => by
       cases n with
       | zero => omega
       | succ m => simp [twoPageByIdFetcher])
     2 0 { } (by omega)⟩

/-- C3: the scope returned by `try_fetch_all` is transactional: entering
it iterates the cursor to exhaustion, rolls the cursor back to (a deep
copy of) its entry state before returning the buffer, commits the
post-iteration state on normal scope exit, and leaves the entry state in
place on abnormal scope exit. -/
theorem tryFetchAll_transactional (f : Fetcher) (fuel n : Nat) (st : CursorState)
    (evs : List Item) (stAfter stFin : CursorState) (n' : Nat)
    (h : ctxEnter f fuel n st = some (evs, stAfter, stFin, n')) :
    stAfter = st
    ∧ iterRun f fuel n st = some (evs, stFin, n')
    ∧ ctxExit true stAfter stFin = st
    ∧ ctxExit false stAfter stFin = stFin := by
  unfold ctxEnter at h
  cases hit : iterRun f fuel n st with
  | none => rw [hit] at h; simp at h
  | some p =>
    obtain ⟨e, sF, m⟩ := p
    rw [hit] at h
    simp only [Option.some.injEq, Prod.mk.injEq] at h
    obtain ⟨he, hsa, hsf, hn⟩ := h
    refine ⟨hsa.symm, ?_, by simp [ctxExit, hsa.symm], by simp [ctxExit]⟩
    rw [he, hsf, hn]

/-- The full cursor state after running `finalPageFetcher` to exhaustion
from `freshCursor`. -/
def finalRunState : CursorState :=
  { request := { t_gte := some 3, t_gt := none, t_lte := none, id_gt := none },
    prev_response := some ⟨some [⟨3, 3⟩], some false⟩,
    seen_ids := {3, 1, 2} }

/-- Witness for `tryFetchAll_transactional`. -/
theorem tryFetchAll_transactional_witness :
    ctxEnter finalPageFetcher 2 0 freshCursor =
      some ([⟨1, 1⟩, ⟨2, 2⟩, ⟨3, 3⟩], freshCursor, finalRunState, 2)
    ∧ ctxExit true freshCursor finalRunState = freshCursor
    ∧ ctxExit false freshCursor finalRunState = finalRunState :=
  ⟨rfl,
   (tryFetchAll_transactional finalPageFetcher 2 0 freshCursor _ _ _ _ rfl).2.2.1,
   (tryFetchAll_transactional finalPageFetcher 2 0 freshCursor _ _ _ _ rfl).2.2.2⟩

/-- C5 counterexample: `inject` does not deep-copy.  After
`c.inject(other)` the `seen_ids` set object is the very same object as
`other`'s (`seenRef` coincides), so mutating it through `other` is
observable through `c`: mutable state *is* shared. -/
theorem inject_shares_seen_ids_cex :
    (injectObj ⟨{ }, none, 0⟩ ⟨{ }, none, 1⟩).seenRef =
      (⟨{ }, none, 1⟩ : CursorObj).seenRef
    ∧ seenObs (seenAdd (fun _ => ∅) (⟨{ }, none, 1⟩ : CursorObj).seenRef 7)
        (injectObj ⟨{ }, none, 0⟩ ⟨{ }, none, 1⟩) = {7}
    ∧ seenObs (fun _ => ∅) (injectObj ⟨{ }, none, 0⟩ ⟨{ }, none, 1⟩) = ∅ := by
  refine ⟨rfl, ?_, rfl⟩
  simp [seenObs, seenAdd, injectObj, setStateObj, getStateObj]

/-- C5 (amended): `inject` overwrites the cursor's state with `other`'s
state *without copying*: the mutable `seen_ids` set object becomes shared
between the two cursors; injecting a (deep) copy of a cursor's own state
leaves its observable state (request, prev_response, seen elements)
identical. -/
theorem inject_overwrites_and_shares (c other : CursorObj) (h : Heap) (fresh : Nat) :
    injectObj c other =
      { request := other.request, prev_response := other.prev_response,
        seenRef := other.seenRef }
    ∧ (injectObj c other).seenRef = other.seenRef
    ∧ (injectObj c (copyCursor h c fresh).1).request = c.request
    ∧ (injectObj c (copyCursor h c fresh).1).prev_response = c.prev_response
    ∧ seenObs (copyCursor h c fresh).2 (injectObj c (copyCursor h c fresh).1) =
        seenObs h c := by
  refine ⟨rfl, rfl, rfl, rfl, ?_⟩
  simp [seenObs, copyCursor, injectObj, setStateObj, getStateObj]

/-- The loop of `_process_done_tasks` collects exactly the successful
workers (in order) for `_storage_save` and exactly the errored tasks. -/
theorem processDoneLoop_split (period : Nat) :
    ∀ (done : List DoneTask) (waiting : List Nat) (pending : List (Nat × Nat)),
      (processDoneLoop period done waiting pending).2.2.1 =
        (done.filter (fun t => t.exception.isNone)).map (fun t => t.worker)
      ∧ (processDoneLoop period done waiting pending).2.2.2 =
        done.filter (fun t => t.exception.isSome) := by
  intro done
  induction done with
  | nil => intro waiting pending; exact ⟨rfl, rfl⟩
  | cons t rest ih =>
    intro waiting pending
    cases hexc : t.exception with
    | some e =>
      have := ih (waiting.erase t.worker) pending
      simp [processDoneLoop, hexc, List.filter_cons, this.1, this.2]
    | none =>
      have := ih (waiting.erase t.worker)
        (updatePending pending t.worker (t.start_time + period))
      simp [processDoneLoop, hexc, List.filter_cons, this.1, this.2]

/-- C6: when at least one completed task of the iteration raised, the
workers whose tasks completed successfully are exactly the list handed to
`_storage_save` (the save happens before the raise), and the raised
`ComplexException` carries every exception raised by completed tasks of
the iteration. -/
theorem processDoneTasks_partial_failure (period : Nat) (done : List DoneTask)
    (waiting : List Nat) (pending : List (Nat × Nat))
    (h : done.filter (fun t => t.exception.isSome) ≠ []) :
    (processDoneTasks period done waiting pending).2.2.1 =
      (done.filter (fun t => t.exception.isNone)).map (fun t => t.worker)
    ∧ (processDoneTasks period done waiting pending).2.2.2 =
      some ((done.filter (fun t => t.exception.isSome)).map
        (fun t => t.exception.getD 0)) := by
  have hs := processDoneLoop_split period done waiting pending
  unfold processDoneTasks
  rw [hs.1, hs.2]
  have : (done.filter (fun t => t.exception.isSome)).isEmpty = false := by
    cases hfe : done.filter (fun t => t.exception.isSome) with
    | nil => exact absurd hfe h
    | cons a l => rfl
  rw [this]
  exact ⟨rfl, rfl⟩

/-- Witness for `processDoneTasks_partial_failure` (scenario S6: worker 1
succeeds, worker 2 raises exception 5). -/
theorem processDoneTasks_partial_failure_witness :
    (processDoneTasks 60 [⟨1, none, 10⟩, ⟨2, some 5, 10⟩] [1, 2] []).2.2.1 =
      (([⟨1, none, 10⟩, ⟨2, some 5, 10⟩] : List DoneTask).filter
        (fun t => t.exception.isNone)).map (fun t => t.worker)
    ∧ (processDoneTasks 60 [⟨1, none, 10⟩, ⟨2, some 5, 10⟩] [1, 2] []).2.2.2 =
      some ((([⟨1, none, 10⟩, ⟨2, some 5, 10⟩] : List DoneTask).filter
        (fun t => t.exception.isSome)).map (fun t => t.exception.getD 0)) :=
  processDoneTasks_partial_failure 60 [⟨1, none, 10⟩, ⟨2, some 5, 10⟩] [1, 2] []
    (by decide)

/-- C8: `Pipeline.run` raises `ValueError` at entry exactly when no
observer is registered, and passes the entry check whenever at least one
observer is registered. -/
theorem pipelineRun_no_observers_valueerror :
    (∀ observers : List Nat,
      pipelineRunEntry observers = Except.error "No observers registered" ↔
        observers = [])
    ∧ (∀ observers : List Nat, observers ≠ [] →
        pipelineRunEntry observers = Except.ok ()) := by
  constructor
  · intro obs
    cases obs with
    | nil => simp [pipelineRunEntry]
    | cons a l => simp [pipelineRunEntry]
  · intro obs hne
    cases obs with
    | nil => exact absurd rfl hne
    | cons a l => simp [pipelineRunEntry]

/-- Witness for `pipelineRun_no_observers_valueerror`. -/
theorem pipelineRun_no_observers_valueerror_witness :
    pipelineRunEntry [] = Except.error "No observers registered"
    ∧ pipelineRunEntry [1] = Except.ok () :=
  ⟨(pipelineRun_no_observers_valueerror.1 []).2 rfl,
   pipelineRun_no_observers_valueerror.2 [1] (by simp)⟩

/-! ## No-duplication invariant (claim C1)

The invariant carried across pages and iterations: every already-yielded
item is either still in `seen_ids` or excluded by the request's lower time
bounds, and every id in `seen_ids` has its time bounded by the request's
lower bounds (so that the strip of `seen_ids` to the current page's ids
never un-protects an item the remote can still return). -/

/-- The request's lower bounds exclude time `t`. -/
def excludedBy (req : SearchRequest) (t : Nat) : Prop :=
  (∃ v, req.t_gte = some v ∧ t < v) ∨ (∃ v, req.t_gt = some v ∧ t ≤ v)

/-- Time `t` is at most one of the request's lower bounds. -/
def seenBound (req : SearchRequest) (t : Nat) : Prop :=
  (∃ v, req.t_gte = some v ∧ t ≤ v) ∨ (∃ v, req.t_gt = some v ∧ t ≤ v)

/-- The item occurs in some response of the fetcher. -/
def InF (f : Fetcher) (it : Item) : Prop :=
  ∃ n req s, it ∈ (f n req s).itemsList

/-- The cursor invariant, relative to the list `Y` of already-yielded
items. -/
structure CursorInv (f : Fetcher) (Y : List Item) (st : CursorState) : Prop where
  yMem : ∀ it ∈ Y, it.id ∈ st.seen_ids ∨ excludedBy st.request it.time
  sBd : ∀ it, InF f it → it.id ∈ st.seen_ids → seenBound st.request it.time
  yInF : ∀ it ∈ Y, InF f it
  yNd : (Y.map Item.id).Nodup

theorem matchesReq_gte {req : SearchRequest} {it : Item} {v : Nat}
    (h : matchesReq req it = true) (hv : req.t_gte = some v) : v ≤ it.time := by
  unfold matchesReq at h
  rw [hv] at h
  simp only [Bool.and_eq_true, decide_eq_true_eq] at h
  exact h.1.1.1

theorem matchesReq_gt {req : SearchRequest} {it : Item} {v : Nat}
    (h : matchesReq req it = true) (hv : req.t_gt = some v) : v < it.time := by
  unfold matchesReq at h
  rw [hv] at h
  simp only [Bool.and_eq_true, decide_eq_true_eq] at h
  exact h.1.1.2

theorem matchesReq_lte {req : SearchRequest} {it : Item} {v : Nat}
    (h : matchesReq req it = true) (hv : req.t_lte = some v) : it.time ≤ v := by
  unfold matchesReq at h
  rw [hv] at h
  simp only [Bool.and_eq_true, decide_eq_true_eq] at h
  exact h.1.2

theorem matches_not_excluded {req : SearchRequest} {it : Item}
    (h : matchesReq req it = true) : ¬ excludedBy req it.time := by
  rintro (⟨v, hv, hlt⟩ | ⟨v, hv, hle⟩)
  · exact absurd (matchesReq_gte h hv) (by omega)
  · exact absurd (matchesReq_gt h hv) (by omega)

theorem excludedBy_of_mono {r0 r1 : SearchRequest} {t : Nat}
    (h : excludedBy r0 t) (hgt : r1.t_gt = r0.t_gt)
    (hgte : ∀ g0, r0.t_gte = some g0 → ∃ g1, r1.t_gte = some g1 ∧ g0 ≤ g1) :
    excludedBy r1 t := by
  rcases h with ⟨v, hv, hlt⟩ | ⟨v, hv, hle⟩
  · obtain ⟨g1, hg1, hle1⟩ := hgte v hv
    exact Or.inl ⟨g1, hg1, by omega⟩
  · exact Or.inr ⟨v, hgt.trans hv, hle⟩

theorem seenBound_of_mono {r0 r1 : SearchRequest} {t : Nat}
    (h : seenBound r0 t) (hgt : r1.t_gt = r0.t_gt)
    (hgte : ∀ g0, r0.t_gte = some g0 → ∃ g1, r1.t_gte = some g1 ∧ g0 ≤ g1) :
    seenBound r1 t := by
  rcases h with ⟨v, hv, hle⟩ | ⟨v, hv, hle⟩
  · obtain ⟨g1, hg1, hle1⟩ := hgte v hv
    exact Or.inl ⟨g1, hg1, by omega⟩
  · exact Or.inr ⟨v, hgt.trans hv, hle⟩

theorem pairwise_time_le_getLast :
    ∀ (L : List Item) (h : L ≠ []),
      L.Pairwise (fun a b => a.time ≤ b.time) →
      ∀ x ∈ L, x.time ≤ (L.getLast h).time := by
  intro L
  induction L with
  | nil => intro h; exact absurd rfl h
  | cons a l ih =>
    intro _ hp x hx
    rcases List.pairwise_cons.1 hp with ⟨ha, hl⟩
    cases l with
    | nil =>
      rw [List.mem_singleton] at hx
      subst hx
      simp
    | cons b m =>
      rw [List.getLast_cons (List.cons_ne_nil b m)]
      rcases List.mem_cons.1 hx with hx | hx
      · subst hx
        exact le_trans (ha _ (List.getLast_mem (List.cons_ne_nil b m)))
          (le_refl _)
      · exact ih (List.cons_ne_nil b m) hl x hx

theorem pairwise_head_le {it0 : Item} {tl : List Item}
    (hp : (it0 :: tl).Pairwise (fun a b => a.time ≤ b.time)) :
    ∀ x ∈ it0 :: tl, it0.time ≤ x.time := by
  intro x hx
  rcases List.mem_cons.1 hx with hx | hx
  · subst hx; exact le_refl _
  · exact (List.pairwise_cons.1 hp).1 x hx

theorem all_times_eq_of_tie {it0 : Item} {tl : List Item}
    (hp : (it0 :: tl).Pairwise (fun a b => a.time ≤ b.time))
    (htie : it0.time = ((it0 :: tl).getLast (List.cons_ne_nil it0 tl)).time) :
    ∀ x ∈ it0 :: tl,
      x.time = ((it0 :: tl).getLast (List.cons_ne_nil it0 tl)).time := by
  intro x hx
  have h1 := pairwise_head_le hp x hx
  have h2 := pairwise_time_le_getLast (it0 :: tl) (List.cons_ne_nil it0 tl) hp x hx
  omega

/-- What one page's dedup loop guarantees: `seen_ids` grows by exactly the
emitted ids, the emitted items form a sublist of the page with fresh
distinct ids, every page item ends up in `seen_ids`, the non-`T_gte`
request fields and `prev_response` are untouched, and `T_gte` ends at the
time of the last emitted item (or the whole state is unchanged when
nothing was emitted). -/
structure PageOut (st : CursorState) (L : List Item)
    (out : List Item × CursorState) : Prop where
  seenEq : out.2.seen_ids = st.seen_ids ∪ (out.1.map Item.id).toFinset
  sublist : out.1.Sublist L
  nd : (out.1.map Item.id).Nodup
  fresh : ∀ e ∈ out.1, e.id ∉ st.seen_ids
  gtEq : out.2.request.t_gt = st.request.t_gt
  lteEq : out.2.request.t_lte = st.request.t_lte
  idgtEq : out.2.request.id_gt = st.request.id_gt
  prevEq : out.2.prev_response = st.prev_response
  allSeen : ∀ x ∈ L, x.id ∈ out.2.seen_ids
  lastEv : ∀ (h : out.1 ≠ []),
    out.2.request.t_gte = some ((out.1).getLast h).time
  noEv : out.1 = [] → out.2 = st

theorem processPageItems_spec :
    ∀ (L : List Item) (st : CursorState), PageOut st L (processPageItems st L) := by
  intro L
  induction L with
  | nil =>
    intro st
    refine { seenEq := by simp [processPageItems], sublist := by simp [processPageItems],
             nd := by simp [processPageItems], fresh := by simp [processPageItems],
             gtEq := rfl, lteEq := rfl, idgtEq := rfl, prevEq := rfl,
             allSeen := by simp, lastEv := ?_, noEv := fun _ => rfl }
    intro h
    exact absurd rfl h
  | cons it rest ih =>
    intro st
    by_cases hmem : it.id ∈ st.seen_ids
    · have heq : processPageItems st (it :: rest) = processPageItems st rest := by
        simp [processPageItems, hmem]
      rw [heq]
      have H := ih st
      exact { seenEq := H.seenEq, sublist := H.sublist.cons it, nd := H.nd,
              fresh := H.fresh, gtEq := H.gtEq, lteEq := H.lteEq,
              idgtEq := H.idgtEq, prevEq := H.prevEq,
              allSeen := by
                intro x hx
                rcases List.mem_cons.1 hx with hx | hx
                · subst hx
                  rw [H.seenEq]
                  exact Finset.mem_union_left _ hmem
                · exact H.allSeen x hx,
              lastEv := H.lastEv, noEv := H.noEv }
    · rcases hout : processPageItems
          { st with request := { st.request with t_gte := some it.time },
                    seen_ids := insert it.id st.seen_ids } rest with ⟨evs, st2⟩
      have heq : processPageItems st (it :: rest) = (it :: evs, st2) := by
        simp [processPageItems, hmem, hout]
      rw [heq]
      have H := ih { st with request := { st.request with t_gte := some it.time }, seen_ids := insert it.id st.seen_ids }
      rw [hout] at H
      refine { seenEq := ?_, sublist := H.sublist.cons₂ it, nd := ?_, fresh := ?_,
               gtEq := H.gtEq, lteEq := H.lteEq, idgtEq := H.idgtEq,
               prevEq := H.prevEq, allSeen := ?_, lastEv := ?_, noEv := ?_ }
      · have := H.seenEq
        simp only at this ⊢
        rw [this]
        ext x
        simp only [Finset.mem_union, Finset.mem_insert, List.map_cons,
          List.toFinset_cons, List.mem_toFinset]
        tauto
      · simp only [List.map_cons, List.nodup_cons]
        refine ⟨?_, H.nd⟩
        intro hc
        rcases List.mem_map.1 hc with ⟨e, he, heid⟩
        have := H.fresh e he
        simp only [Finset.mem_insert] at this
        exact this (Or.inl heid)
      · intro e he
        rcases List.mem_cons.1 he with he | he
        · subst he; exact hmem
        · have := H.fresh e he
          simp only [Finset.mem_insert] at this
          intro hc
          exact this (Or.inr hc)
      · intro x hx
        rcases List.mem_cons.1 hx with hx | hx
        · subst hx
          rw [H.seenEq]
          exact Finset.mem_union_left _ (Finset.mem_insert_self _ _)
        · exact H.allSeen x hx
      · intro h
        cases evs with
        | nil =>
          have h2 := H.noEv rfl
          rw [h2]
          simp
        | cons e l =>
          have hne : (e :: l : List Item) ≠ [] := List.cons_ne_nil e l
          have hlast := H.lastEv hne
          rw [show ((it :: e :: l, st2) : List Item × CursorState).1.getLast h =
            (e :: l).getLast hne from List.getLast_cons hne]
          exact hlast
      · intro h
        exact absurd h (List.cons_ne_nil it evs)

/-- On a time-sorted page whose items all satisfy the entry bound, the
dedup loop only moves `T_gte` up, and the final `T_gte` bounds every
emitted item's time. -/
theorem processPageItems_gte (st : CursorState) (L : List Item)
    (hsort : L.Pairwise (fun a b => a.time ≤ b.time)) :
    (∀ g0, st.request.t_gte = some g0 → (∀ x ∈ L, g0 ≤ x.time) →
      ∃ g1, (processPageItems st L).2.request.t_gte = some g1 ∧ g0 ≤ g1)
    ∧ (∀ e ∈ (processPageItems st L).1,
      ∃ g1, (processPageItems st L).2.request.t_gte = some g1 ∧ e.time ≤ g1) := by
  have H := processPageItems_spec L st
  constructor
  · intro g0 hg0 hb
    cases hevs : (processPageItems st L).1 with
    | nil =>
      have hst := H.noEv hevs
      exact ⟨g0, by rw [hst]; exact hg0, le_refl g0⟩
    | cons e l =>
      have hne : (processPageItems st L).1 ≠ [] := by rw [hevs]; simp
      refine ⟨(((processPageItems st L).1).getLast hne).time, H.lastEv hne, ?_⟩
      exact hb _ (H.sublist.subset (List.getLast_mem hne))
  · intro e he
    have hne : (processPageItems st L).1 ≠ [] := by
      intro hc
      rw [hc] at he
      exact absurd he (List.not_mem_nil e)
    refine ⟨(((processPageItems st L).1).getLast hne).time, H.lastEv hne, ?_⟩
    exact pairwise_time_le_getLast _ hne (hsort.sublist H.sublist) e he

/-- What the drain filter loop guarantees: `seen_ids` grows by exactly the
emitted ids, emitted items come from the drained list with fresh distinct
ids, and request and `prev_response` are untouched. -/
structure DrainOut (st : CursorState) (L : List Item)
    (out : List Item × CursorState) : Prop where
  seenEq : out.2.seen_ids = st.seen_ids ∪ (out.1.map Item.id).toFinset
  sub : ∀ e ∈ out.1, e ∈ L
  nd : (out.1.map Item.id).Nodup
  fresh : ∀ e ∈ out.1, e.id ∉ st.seen_ids
  reqEq : out.2.request = st.request
  prevEq : out.2.prev_response = st.prev_response

theorem processDrainItems_spec :
    ∀ (L : List Item) (st : CursorState), DrainOut st L (processDrainItems st L) := by
  intro L
  induction L with
  | nil =>
    intro st
    exact { seenEq := by simp [processDrainItems], sub := by simp [processDrainItems],
            nd := by simp [processDrainItems], fresh := by simp [processDrainItems],
            reqEq := rfl, prevEq := rfl }
  | cons it rest ih =>
    intro st
    by_cases hmem : it.id ∈ st.seen_ids
    · have heq : processDrainItems st (it :: rest) = processDrainItems st rest := by
        simp [processDrainItems, hmem]
      rw [heq]
      have H := ih st
      exact { seenEq := H.seenEq,
              sub := fun e he => List.mem_cons_of_mem it (H.sub e he),
              nd := H.nd, fresh := H.fresh, reqEq := H.reqEq, prevEq := H.prevEq }
    · rcases hout : processDrainItems
          { st with seen_ids := insert it.id st.seen_ids } rest with ⟨evs, st2⟩
      have heq : processDrainItems st (it :: rest) = (it :: evs, st2) := by
        simp [processDrainItems, hmem, hout]
      rw [heq]
      have H := ih { st with seen_ids := insert it.id st.seen_ids }
      rw [hout] at H
      refine { seenEq := ?_, sub := ?_, nd := ?_, fresh := ?_,
               reqEq := H.reqEq, prevEq := H.prevEq }
      · have hs := H.seenEq
        simp only at hs ⊢
        rw [hs]
        ext x
        simp only [Finset.mem_union, Finset.mem_insert, List.map_cons,
          List.toFinset_cons, List.mem_toFinset]
        tauto
      · intro e he
        rcases List.mem_cons.1 he with he | he
        · rw [he]; exact List.mem_cons_self it rest
        · exact List.mem_cons_of_mem it (H.sub e he)
      · simp only [List.map_cons, List.nodup_cons]
        refine ⟨?_, H.nd⟩
        intro hc
        rcases List.mem_map.1 hc with ⟨e, he, heid⟩
        have := H.fresh e he
        simp only [Finset.mem_insert] at this
        exact this (Or.inl heid)
      · intro e he
        rcases List.mem_cons.1 he with he | he
        · subst he; exact hmem
        · have := H.fresh e he
          simp only [Finset.mem_insert] at this
          intro hc
          exact this (Or.inr hc)

theorem advanceIdGt_time_fields (req : SearchRequest) (items : List Item) :
    (advanceIdGt req items).t_gte = req.t_gte
    ∧ (advanceIdGt req items).t_gt = req.t_gt
    ∧ (advanceIdGt req items).t_lte = req.t_lte := by
  unfold advanceIdGt
  cases items.getLast? with
  | none => exact ⟨rfl, rfl, rfl⟩
  | some l => exact ⟨rfl, rfl, rfl⟩

/-- Every item produced by a `_ByIdCursor` run occurs in a fetcher
response and satisfies the time bounds of the drain's fixed-time request
(which never change across the run: only `id_gt` evolves). -/
theorem byIdRun_items_bounds (f : Fetcher) (hf : ValidFetcher f) :
    ∀ (fuel n : Nat) (req : SearchRequest) (items : List Item)
      (reqF : SearchRequest) (nF : Nat),
      byIdRun f fuel n req = some (items, reqF, nF) →
      ∀ it ∈ items, InF f it
        ∧ (∀ v, req.t_gte = some v → v ≤ it.time)
        ∧ (∀ v, req.t_gt = some v → v < it.time)
        ∧ (∀ v, req.t_lte = some v → it.time ≤ v) := by
  intro fuel
  induction fuel with
  | zero => intro n req items reqF nF h; simp [byIdRun] at h
  | succ fuel ih =>
    intro n req items reqF nF h
    rw [byIdRun] at h
    by_cases hmore : (f n req SortKey.byId).has_more = some true
    · rw [if_pos hmore] at h
      cases hrec : byIdRun f fuel (n + 1)
          (advanceIdGt req (f n req SortKey.byId).itemsList) with
      | none => rw [hrec] at h; simp at h
      | some p =>
        obtain ⟨more, rF, nF2⟩ := p
        rw [hrec] at h
        simp only [Option.some.injEq, Prod.mk.injEq] at h
        obtain ⟨hitems, -, -⟩ := h
        intro it hit
        rw [← hitems] at hit
        rcases List.mem_append.1 hit with hit | hit
        · exact ⟨⟨n, req, SortKey.byId, hit⟩,
            fun v hv => matchesReq_gte (hf.matches_req n req SortKey.byId it hit) hv,
            fun v hv => matchesReq_gt (hf.matches_req n req SortKey.byId it hit) hv,
            fun v hv => matchesReq_lte (hf.matches_req n req SortKey.byId it hit) hv⟩
        · obtain ⟨hInF, h1, h2, h3⟩ := ih (n + 1) _ more rF nF2 hrec it hit
          have ha := advanceIdGt_time_fields req (f n req SortKey.byId).itemsList
          exact ⟨hInF,
            fun v hv => h1 v (by rw [ha.1, hv]),
            fun v hv => h2 v (by rw [ha.2.1, hv]),
            fun v hv => h3 v (by rw [ha.2.2, hv])⟩
    · rw [if_neg hmore] at h
      simp only [Option.some.injEq, Prod.mk.injEq] at h
      obtain ⟨hitems, -, -⟩ := h
      intro it hit
      rw [← hitems] at hit
      exact ⟨⟨n, req, SortKey.byId, hit⟩,
        fun v hv => matchesReq_gte (hf.matches_req n req SortKey.byId it hit) hv,
        fun v hv => matchesReq_gt (hf.matches_req n req SortKey.byId it hit) hv,
        fun v hv => matchesReq_lte (hf.matches_req n req SortKey.byId it hit) hv⟩

/-- One `stepPage` round preserves the cursor invariant, extending the
yielded list by the round's events. -/
theorem stepPage_inv (f : Fetcher) (hf : ValidFetcher f) (df n : Nat)
    (st : CursorState) (Y : List Item) (hInv : CursorInv f Y st)
    (evs : List Item) (st' : CursorState) (n' : Nat) (cont : Bool)
    (h : stepPage f df n st = some (evs, st', n', cont)) :
    CursorInv f (Y ++ evs) st' := by
  unfold stepPage at h
  rw [stepPageWith.eq_def] at h
  split at h
  · -- empty page: nothing emitted, state untouched
    simp only [Option.some.injEq, Prod.mk.injEq] at h
    obtain ⟨h1, h2, -, -⟩ := h
    subst h1
    subst h2
    simpa using hInv
  · rename_i it0 tl heq
    -- common facts about the fetched page
    have hmatchL : ∀ x ∈ it0 :: tl, matchesReq st.request x = true := by
      intro x hx
      exact hf.matches_req n st.request SortKey.byTime x (by rw [heq]; exact hx)
    have hsortL : (it0 :: tl).Pairwise (fun a b => a.time ≤ b.time) := by
      have hs := hf.sorted n st.request
      rw [heq] at hs
      exact hs
    have hInFL : ∀ x ∈ it0 :: tl, InF f x := by
      intro x hx
      exact ⟨n, st.request, SortKey.byTime, by rw [heq]; exact hx⟩
    have HP := processPageItems_spec (it0 :: tl)
      { st with prev_response := some (f n st.request SortKey.byTime) }
    have HG := processPageItems_gte
      { st with prev_response := some (f n st.request SortKey.byTime) }
      (it0 :: tl) hsortL
    have hgte : ∀ g0, st.request.t_gte = some g0 →
        ∃ g1, (processPageItems
          { st with prev_response := some (f n st.request SortKey.byTime) }
          (it0 :: tl)).2.request.t_gte = some g1 ∧ g0 ≤ g1 := by
      intro g0 hg0
      exact HG.1 g0 hg0 (fun x hx => matchesReq_gte (hmatchL x hx) hg0)
    have hYdisj : ∀ y ∈ Y, ∀ e ∈ (processPageItems
        { st with prev_response := some (f n st.request SortKey.byTime) }
        (it0 :: tl)).1, y.id = e.id → False := by
      intro y hy e he hid
      have heL : e ∈ it0 :: tl := HP.sublist.subset he
      rcases hInv.yMem y hy with hseen | hexcl
      · exact HP.fresh e he (hid ▸ hseen)
      · obtain ⟨n1, r1, s1, hm1⟩ := hInv.yInF y hy
        have htime : y.time = e.time :=
          hf.consistent n1 r1 s1 n st.request SortKey.byTime y e hm1
            (by rw [heq]; exact heL) hid
        exact matches_not_excluded (hmatchL e heL) (htime ▸ hexcl)
    have hndY : ((Y ++ (processPageItems
        { st with prev_response := some (f n st.request SortKey.byTime) }
        (it0 :: tl)).1).map Item.id).Nodup := by
      rw [List.map_append, List.nodup_append]
      refine ⟨hInv.yNd, HP.nd, ?_⟩
      intro a ha hb
      rcases List.mem_map.1 ha with ⟨y, hy, hyid⟩
      rcases List.mem_map.1 hb with ⟨e, he, heid⟩
      exact hYdisj y hy e he (hyid.trans heid.symm)
    have hsBdNew : ∀ itm, InF f itm →
        itm.id ∈ ((processPageItems
          { st with prev_response := some (f n st.request SortKey.byTime) }
          (it0 :: tl)).1.map Item.id).toFinset →
        ∃ e ∈ (processPageItems
          { st with prev_response := some (f n st.request SortKey.byTime) }
          (it0 :: tl)).1, itm.time = e.time := by
      intro itm hInFm hmem
      rcases List.mem_map.1 (List.mem_toFinset.1 hmem) with ⟨e, he, heid⟩
      obtain ⟨n1, r1, s1, hm1⟩ := hInFm
      refine ⟨e, he, ?_⟩
      exact hf.consistent n1 r1 s1 n st.request SortKey.byTime itm e hm1
        (by rw [heq]; exact HP.sublist.subset he) heid.symm
    split_ifs at h with hmore htie
    · -- final page of the pass: no strip
      simp only [Option.some.injEq, Prod.mk.injEq] at h
      obtain ⟨h1, h2, -, -⟩ := h
      subst h1
      subst h2
      refine { yMem := ?_, sBd := ?_, yInF := ?_, yNd := hndY }
      · intro itm hitm
        rcases List.mem_append.1 hitm with hy | he
        · rcases hInv.yMem itm hy with hseen | hexcl
          · left
            rw [HP.seenEq]
            exact Finset.mem_union_left _ hseen
          · right
            exact excludedBy_of_mono hexcl HP.gtEq hgte
        · left
          rw [HP.seenEq]
          exact Finset.mem_union_right _
            (List.mem_toFinset.2 (List.mem_map_of_mem _ he))
      · intro itm hInFm hmem
        rw [HP.seenEq] at hmem
        rcases Finset.mem_union.1 hmem with hmem | hmem
        · exact seenBound_of_mono (hInv.sBd itm hInFm hmem) HP.gtEq hgte
        · obtain ⟨e, he, htime⟩ := hsBdNew itm hInFm hmem
          obtain ⟨g1, hg1, hle⟩ := HG.2 e he
          exact Or.inl ⟨g1, hg1, by omega⟩
      · intro itm hitm
        rcases List.mem_append.1 hitm with hy | he
        · exact hInv.yInF itm hy
        · exact hInFL itm (HP.sublist.subset he)
    · -- tie: whole page at max_time, by-id drain, then T_gt := max_time
      split at h
      · simp at h
      · rename_i drained reqF nDrain hdrain
        simp only [Option.some.injEq, Prod.mk.injEq] at h
        obtain ⟨h1, h2, h3, -⟩ := h
        subst h1
        subst h2
        have HQ := processDrainItems_spec drained
          (processPageItems
            { st with prev_response := some (f n st.request SortKey.byTime) }
            (it0 :: tl)).2
        have HB := byIdRun_items_bounds f hf df (n + 1) _ drained reqF nDrain hdrain
        have htimesEq := all_times_eq_of_tie hsortL htie
        have hg0le : ∀ g0, st.request.t_gte = some g0 →
            g0 ≤ ((it0 :: tl).getLast (List.cons_ne_nil it0 tl)).time := by
          intro g0 hg0
          have := matchesReq_gte (hmatchL it0 (List.mem_cons_self it0 tl)) hg0
          omega
        have hglt : ∀ v, st.request.t_gt = some v →
            v < ((it0 :: tl).getLast (List.cons_ne_nil it0 tl)).time := by
          intro v hv
          have := matchesReq_gt (hmatchL it0 (List.mem_cons_self it0 tl)) hv
          omega
        have hdrle : ∀ d ∈ drained,
            d.time ≤ ((it0 :: tl).getLast (List.cons_ne_nil it0 tl)).time := by
          intro d hd
          exact (HB d hd).2.2.2 _ rfl
        refine { yMem := ?_, sBd := ?_, yInF := ?_, yNd := ?_ }
        · intro itm hitm
          right
          refine Or.inr ⟨((it0 :: tl).getLast (List.cons_ne_nil it0 tl)).time, rfl, ?_⟩
          rcases List.mem_append.1 hitm with hy | hpq
          · rcases hInv.yMem itm hy with hseen | hexcl
            · rcases hInv.sBd itm (hInv.yInF itm hy) hseen with ⟨g0, hg0, hle⟩ | ⟨v, hv, hle⟩
              · have := hg0le g0 hg0
                omega
              · have := hglt v hv
                omega
            · rcases hexcl with ⟨g0, hg0, hlt⟩ | ⟨v, hv, hle⟩
              · have := hg0le g0 hg0
                omega
              · have := hglt v hv
                omega
          · rcases List.mem_append.1 hpq with hp | hq
            · have := htimesEq itm (HP.sublist.subset hp)
              omega
            · exact hdrle itm (HQ.sub itm hq)
        · intro itm hInFm hmem
          simp only at hmem
          rcases List.mem_map.1 (List.mem_toFinset.1 hmem) with ⟨p, hp, hpid⟩
          obtain ⟨n1, r1, s1, hm1⟩ := hInFm
          have htime : itm.time = p.time :=
            hf.consistent n1 r1 s1 n st.request SortKey.byTime itm p hm1
              (by rw [heq]; exact hp) hpid.symm
          have := htimesEq p hp
          exact Or.inr ⟨((it0 :: tl).getLast (List.cons_ne_nil it0 tl)).time, rfl,
            by omega⟩
        · intro itm hitm
          rcases List.mem_append.1 hitm with hy | hpq
          · exact hInv.yInF itm hy
          · rcases List.mem_append.1 hpq with hp | hq
            · exact hInFL itm (HP.sublist.subset hp)
            · exact (HB itm (HQ.sub itm hq)).1
        · rw [List.map_append, List.nodup_append]
          refine ⟨hInv.yNd, ?_, ?_⟩
          · rw [List.map_append, List.nodup_append]
            refine ⟨HP.nd, HQ.nd, ?_⟩
            intro a ha hb
            rcases List.mem_map.1 ha with ⟨e, he, heid⟩
            rcases List.mem_map.1 hb with ⟨d, hd, hdid⟩
            have heSeen : e.id ∈ (processPageItems
                { st with prev_response := some (f n st.request SortKey.byTime) }
                (it0 :: tl)).2.seen_ids := by
              rw [HP.seenEq]
              exact Finset.mem_union_right _
                (List.mem_toFinset.2 (List.mem_map_of_mem _ he))
            have := HQ.fresh d hd
            rw [hdid, ← heid] at this
            exact this heSeen
          · intro a ha hb
            rcases List.mem_map.1 ha with ⟨y, hy, hyid⟩
            rw [List.map_append, List.mem_append] at hb
            rcases hb with hb | hb
            · rcases List.mem_map.1 hb with ⟨e, he, heid⟩
              exact hYdisj y hy e he (hyid.trans heid.symm)
            · rcases List.mem_map.1 hb with ⟨d, hd, hdid⟩
              have hdD := HQ.sub d hd
              have hid : y.id = d.id := by rw [← hyid] at hdid; exact hdid.symm
              rcases hInv.yMem y hy with hseen | hexcl
              · have hseen2 : d.id ∈ (processPageItems
                    { st with prev_response := some (f n st.request SortKey.byTime) }
                    (it0 :: tl)).2.seen_ids := by
                  rw [HP.seenEq]
                  exact Finset.mem_union_left _ (hid ▸ hseen)
                exact HQ.fresh d hd hseen2
              · obtain ⟨n1, r1, s1, hm1⟩ := hInv.yInF y hy
                obtain ⟨hdInF, hd1, hd2, hd3⟩ := HB d hdD
                obtain ⟨n2, r2, s2, hm2⟩ := hdInF
                have htime : y.time = d.time :=
                  hf.consistent n1 r1 s1 n2 r2 s2 y d hm1 hm2 hid
                rcases hexcl with ⟨g0, hg0, hlt⟩ | ⟨v, hv, hle⟩
                · obtain ⟨g1, hg1, hge⟩ := hgte g0 hg0
                  have := hd1 g1 hg1
                  omega
                · have hPgt : (processPageItems
                      { st with prev_response := some (f n st.request SortKey.byTime) }
                      (it0 :: tl)).2.request.t_gt = some v := by
                    rw [HP.gtEq]
                    exact hv
                  have := hd2 v hPgt
                  omega
    · -- no tie: strip seen_ids to the page's ids, request unchanged
      simp only [Option.some.injEq, Prod.mk.injEq] at h
      obtain ⟨h1, h2, -, -⟩ := h
      subst h1
      subst h2
      have hlastmem : (it0 :: tl).getLast (List.cons_ne_nil it0 tl) ∈ it0 :: tl :=
        List.getLast_mem _
      have hhead_lt : it0.time <
          ((it0 :: tl).getLast (List.cons_ne_nil it0 tl)).time := by
        have hle := pairwise_time_le_getLast (it0 :: tl) (List.cons_ne_nil it0 tl)
          hsortL it0 (List.mem_cons_self it0 tl)
        omega
      have hmaxg : ∃ g1, (processPageItems
          { st with prev_response := some (f n st.request SortKey.byTime) }
          (it0 :: tl)).2.request.t_gte = some g1 ∧
          ((it0 :: tl).getLast (List.cons_ne_nil it0 tl)).time ≤ g1 := by
        have hlastSeen := HP.allSeen _ hlastmem
        rw [HP.seenEq] at hlastSeen
        rcases Finset.mem_union.1 hlastSeen with hmem | hmem
        · exfalso
          rcases hInv.sBd _ (hInFL _ hlastmem) hmem with ⟨g0, hg0, hle⟩ | ⟨v, hv, hle⟩
          · have h1 := matchesReq_gte (hmatchL it0 (List.mem_cons_self it0 tl)) hg0
            omega
          · have h1 := matchesReq_gt (hmatchL _ hlastmem) hv
            omega
        · rcases List.mem_map.1 (List.mem_toFinset.1 hmem) with ⟨e, he, heid⟩
          have htime : e.time =
              ((it0 :: tl).getLast (List.cons_ne_nil it0 tl)).time :=
            hf.consistent n st.request SortKey.byTime n st.request SortKey.byTime
              e _ (by rw [heq]; exact HP.sublist.subset he)
              (by rw [heq]; exact hlastmem) heid
          obtain ⟨g1, hg1, hle⟩ := HG.2 e he
          exact ⟨g1, hg1, by omega⟩
      refine { yMem := ?_, sBd := ?_, yInF := ?_, yNd := hndY }
      · intro itm hitm
        rcases List.mem_append.1 hitm with hy | he
        · rcases hInv.yMem itm hy with hseen | hexcl
          · by_cases hpg : itm.id ∈ ((it0 :: tl).map Item.id).toFinset
            · left
              exact hpg
            · right
              rcases hInv.sBd itm (hInv.yInF itm hy) hseen with
                ⟨g0, hg0, hle⟩ | ⟨v, hv, hle⟩
              · obtain ⟨g1, hg1, hge⟩ := hmaxg
                have hg0h := matchesReq_gte
                  (hmatchL it0 (List.mem_cons_self it0 tl)) hg0
                exact Or.inl ⟨g1, hg1, by omega⟩
              · refine Or.inr ⟨v, ?_, hle⟩
                rw [HP.gtEq]
                exact hv
          · right
            exact excludedBy_of_mono hexcl HP.gtEq hgte
        · left
          exact List.mem_toFinset.2
            (List.mem_map_of_mem _ (HP.sublist.subset he))
      · intro itm hInFm hmem
        simp only at hmem
        rcases List.mem_map.1 (List.mem_toFinset.1 hmem) with ⟨p, hp, hpid⟩
        obtain ⟨n1, r1, s1, hm1⟩ := hInFm
        have htime : itm.time = p.time :=
          hf.consistent n1 r1 s1 n st.request SortKey.byTime itm p hm1
            (by rw [heq]; exact hp) hpid.symm
        have hple := pairwise_time_le_getLast (it0 :: tl)
          (List.cons_ne_nil it0 tl) hsortL p hp
        obtain ⟨g1, hg1, hge⟩ := hmaxg
        exact Or.inl ⟨g1, hg1, by omega⟩
      · intro itm hitm
        rcases List.mem_append.1 hitm with hy | he
        · exact hInv.yInF itm hy
        · exact hInFL itm (HP.sublist.subset he)

/-- A whole iteration pass preserves the cursor invariant. -/
theorem iterRun_inv (f : Fetcher) (hf : ValidFetcher f) :
    ∀ (fuel n : Nat) (st : CursorState) (Y : List Item), CursorInv f Y st →
      ∀ evs st' n', iterRun f fuel n st = some (evs, st', n') →
        CursorInv f (Y ++ evs) st' := by
  intro fuel
  induction fuel with
  | zero => intro n st Y hInv evs st' n' h; simp [iterRun] at h
  | succ fuel ih =>
    intro n st Y hInv evs st' n' h
    rw [iterRun] at h
    cases hstep : stepPage f fuel n st with
    | none => rw [hstep] at h; simp at h
    | some q =>
      obtain ⟨evs1, st1, n1, cont⟩ := q
      rw [hstep] at h
      cases cont with
      | false =>
        simp only [Option.some.injEq, Prod.mk.injEq] at h
        obtain ⟨h1, h2, -⟩ := h
        subst h1
        subst h2
        exact stepPage_inv f hf fuel n st Y hInv _ _ _ _ hstep
      | true =>
        simp only at h
        cases hrec : iterRun f fuel n1 st1 with
        | none => rw [hrec] at h; simp at h
        | some p =>
          obtain ⟨evs2, stF, nF⟩ := p
          rw [hrec] at h
          simp only [Option.some.injEq, Prod.mk.injEq] at h
          obtain ⟨h1, h2, -⟩ := h
          subst h1
          subst h2
          have hstepInv := stepPage_inv f hf fuel n st Y hInv _ _ _ _ hstep
          have hrecInv := ih n1 st1 (Y ++ evs1) hstepInv evs2 stF nF hrec
          simpa [List.append_assoc] using hrecInv

/-- A sequence of complete iteration passes preserves the cursor
invariant. -/
theorem multiRun_inv (f : Fetcher) (hf : ValidFetcher f) :
    ∀ (fuels : List Nat) (n : Nat) (st : CursorState) (Y : List Item),
      CursorInv f Y st →
      ∀ evs stF nF, multiRun f fuels n st = some (evs, stF, nF) →
        CursorInv f (Y ++ evs) stF := by
  intro fuels
  induction fuels with
  | nil =>
    intro n st Y hInv evs stF nF h
    simp only [multiRun, Option.some.injEq, Prod.mk.injEq] at h
    obtain ⟨h1, h2, -⟩ := h
    subst h1
    subst h2
    simpa using hInv
  | cons fu rest ih =>
    intro n st Y hInv evs stF nF h
    rw [multiRun] at h
    cases hit : iterRun f fu n st with
    | none => rw [hit] at h; simp at h
    | some p =>
      obtain ⟨evs1, st1, n1⟩ := p
      rw [hit] at h
      simp only at h
      cases hrec : multiRun f rest n1 st1 with
      | none => rw [hrec] at h; simp at h
      | some q =>
        obtain ⟨evs2, st2, n2⟩ := q
        rw [hrec] at h
        simp only [Option.some.injEq, Prod.mk.injEq] at h
        obtain ⟨h1, h2, -⟩ := h
        subst h1
        subst h2
        have h1Inv := iterRun_inv f hf fu n st Y hInv evs1 st1 n1 hit
        have h2Inv := ih n1 st1 (Y ++ evs1) h1Inv evs2 st2 n2 hrec
        simpa [List.append_assoc] using h2Inv

/-- C1: for every cursor starting with an empty `seen_ids` and every
fetcher whose responses are ascending in the time field, satisfy the
issued request's predicates, and give each id one fixed time, no item id
is ever emitted twice over any sequence of complete iteration passes of
the same cursor instance. -/
theorem cursor_no_duplication (f : Fetcher) (hf : ValidFetcher f)
    (st : CursorState) (hseen : st.seen_ids = ∅)
    (fuels : List Nat) (n : Nat) (evs : List Item) (stF : CursorState) (nF : Nat)
    (h : multiRun f fuels n st = some (evs, stF, nF)) :
    (evs.map Item.id).Nodup := by
  have hInv : CursorInv f [] st :=
    { yMem := by intro it hit; simp at hit,
      sBd := by intro it hInF hmem; rw [hseen] at hmem; simp at hmem,
      yInF := by intro it hit; simp at hit,
      yNd := by simp }
  have hres := multiRun_inv f hf fuels n st [] hInv evs stF nF h
  simpa using hres.yNd

/-- A remote collection with one item at time 1 and one at time 2; the
fetcher answers every request with the items that satisfy it, in one
final page. -/
def dupFreePool : List Item := [⟨1, 1⟩, ⟨2, 2⟩]

def filteringFetcher : Fetcher := fun _ req _ =>
  ⟨some (dupFreePool.filter (fun it => matchesReq req it)), some false⟩

theorem filteringFetcher_valid : ValidFetcher filteringFetcher := by
  refine { sorted := ?_, matches_req := ?_, consistent := ?_ }
  · intro n req
    have hpool : dupFreePool.Pairwise (fun a b => a.time ≤ b.time) := by decide
    have hsub : (dupFreePool.filter (fun it => matchesReq req it)).Sublist
        dupFreePool := List.filter_sublist dupFreePool
    simpa [filteringFetcher, Response.itemsList] using hpool.sublist hsub
  · intro n req s it hit
    simp only [filteringFetcher, Response.itemsList, Option.getD_some] at hit
    exact (List.mem_filter.1 hit).2
  · intro n req s n' req' s' it it' h1 h2 hid
    simp only [filteringFetcher, Response.itemsList, Option.getD_some] at h1 h2
    have m1 := (List.mem_filter.1 h1).1
    have m2 := (List.mem_filter.1 h2).1
    have hpool : ∀ a ∈ dupFreePool, ∀ b ∈ dupFreePool,
        a.id = b.id → a.time = b.time := by decide
    exact hpool it m1 it' m2 hid

/-- Witness for `cursor_no_duplication`. -/
theorem cursor_no_duplication_witness :
    (([⟨1, 1⟩, ⟨2, 2⟩] : List Item).map Item.id).Nodup :=
  cursor_no_duplication filteringFetcher filteringFetcher_valid freshCursor rfl
    [1] 0 [⟨1, 1⟩, ⟨2, 2⟩] _ _ rfl
